import Mathlib

/-!
Verification development for the NIFTy core: a shallow embedding of the
domain/Field model, the scaling and diagonal operators, the Linearization
autodiff layer, the Poissonian energy, and the scipy-based minimizer glue,
together with theorems checking the specified behaviour of each part.

Machine reals are modelled by the rationals `ℚ` (complex values by pairs of
rationals), so that all definitions are executable and all properties are
exact statements about the algebra the source code performs.
-/

set_option autoImplicit false

namespace NIFTy

/-! ### Complex scalars as pairs of rationals (model of complex machine values) -/

/-- A complex scalar with rational real and imaginary parts. -/
structure CQ where
  re : ℚ
  im : ℚ
deriving DecidableEq, Repr

namespace CQ

/-- Embedding of a real (rational) scalar. -/
def ofRat (q : ℚ) : CQ := ⟨q, 0⟩

/-- Complex addition. -/
def add (a b : CQ) : CQ := ⟨a.re + b.re, a.im + b.im⟩

/-- Complex multiplication. -/
def mul (a b : CQ) : CQ := ⟨a.re * b.re - a.im * b.im, a.re * b.im + a.im * b.re⟩

/-- Complex negation. -/
def neg (a : CQ) : CQ := ⟨-a.re, -a.im⟩

/-- Complex conjugation. -/
def conj (a : CQ) : CQ := ⟨a.re, -a.im⟩

instance : Add CQ := ⟨CQ.add⟩

instance : Mul CQ := ⟨CQ.mul⟩

instance : Neg CQ := ⟨CQ.neg⟩

instance : Zero CQ := ⟨⟨0, 0⟩⟩

instance : One CQ := ⟨⟨1, 0⟩⟩

/-- Complex reciprocal `1/a` (the value `0` for `a = 0`, matching the model's
total-division convention; the source never divides by a zero factor on the
paths verified here). -/
def inv (a : CQ) : CQ :=
  let d := a.re * a.re + a.im * a.im
  ⟨a.re / d, -a.im / d⟩

end CQ

/-- Sum of a list of complex scalars. -/
def csum (l : List CQ) : CQ := l.foldr (· + ·) 0

/-! ### Inner products (`Field.dot` of nifty, `Field.vdot` of nifty5)

`Field.dot(self, x, bare)` of `src/nifty/field.py` computes
`(x.conjugate() * y).sum()` where `y = self` if `bare` and
`y = self.weight(power=1)` otherwise; `weight` multiplies each cell by its
(real, positive) volume element.  `Field.vdot(self, x)` of
`src/nifty5/field.py` computes `dobj.vdot(self.val, x.val)`, i.e.
`(self.conjugate() * x).sum()` with no volume weighting. -/

/-- Pointwise volume weighting of a complex buffer by real volume elements
raised to the first power (the `power=1` case of `Field.weight`). -/
def weightBuf (w : List ℚ) (v : List CQ) : List CQ :=
  List.zipWith (fun wi vi => CQ.ofRat wi * vi) w v

/-- `Field.dot` of `src/nifty/field.py` (full-domain case, `spaces=None`):
conjugate the argument `x`, multiply pointwise with `self` weighted by the
volume element unless `bare`, and sum. -/
def fieldDot (w : List ℚ) (bare : Bool) (self x : List CQ) : CQ :=
  let y := if bare then self else weightBuf w self
  csum (List.zipWith (fun xi yi => CQ.conj xi * yi) x y)

/-- `Field.vdot` of `src/nifty5/field.py` (full-domain case): the unweighted
conjugate inner product `sum(conj(self) * x)`. -/
def fieldVdot5 (self x : List CQ) : CQ :=
  csum (List.zipWith (fun si xi => CQ.conj si * xi) self x)

/-! ### Domains and the `DomainTuple` identity cache (`src/nifty5/domain_tuple.py`)

A `Domain` is an immutable structural descriptor (shape plus harmonic flag).
`DomainTuple.make` consults the process-wide `_tupleCache` keyed by the parsed
domain tuple before constructing; `__eq__` is
`(self is x) or (self._dom == x._dom)`.  Object identity of the Python
objects is modelled by a unique id (`uid`) handed out at construction time,
so "same object" is equality of the Lean values. -/

/-- Structural descriptor of a discretized space. -/
structure Domain where
  shape : List Nat
  harmonic : Bool
deriving DecidableEq, Repr

/-- A `DomainTuple` object: the ordered sequence of domains together with the
identity (`uid`) of the constructed object. -/
structure DomainTuple where
  uid : Nat
  dom : List Domain
deriving DecidableEq, Repr

/-- The `_tupleCache` lookup: find the cached tuple whose parsed domain equals
the requested one. -/
def tupleLookup (c : List DomainTuple) (k : List Domain) : Option DomainTuple :=
  c.find? (fun t => decide (t.dom = k))

/-- `DomainTuple.make`: return the cached object when a structurally equal
tuple exists, otherwise construct a fresh object (fresh identity) and insert
it into the cache. -/
def domainTupleMake (c : List DomainTuple) (k : List Domain) :
    DomainTuple × List DomainTuple :=
  match tupleLookup c k with
  | some t => (t, c)
  | none => (⟨c.length, k⟩, ⟨c.length, k⟩ :: c)

/-- `DomainTuple.__eq__`: reference identity, or structural equality of the
domain sequences. -/
def dtEq (a b : DomainTuple) : Bool :=
  decide (a = b) || decide (a.dom = b.dom)

/-- Well-formedness of the identity cache: every cached uid is below the cache
size, and both uids and domain sequences determine the cached object
uniquely. -/
def CacheWF (c : List DomainTuple) : Prop :=
  (∀ t ∈ c, t.uid < c.length) ∧
  (∀ t1 ∈ c, ∀ t2 ∈ c, t1.uid = t2.uid → t1 = t2) ∧
  (∀ t1 ∈ c, ∀ t2 ∈ c, t1.dom = t2.dom → t1 = t2)

instance (c : List DomainTuple) : Decidable (CacheWF c) := by
  unfold CacheWF; infer_instance

/-! ### `Field` binary operations (`src/nifty5/field.py`)

Every binary operator between two Fields first checks
`other._domain is not self._domain` and raises `ValueError` on mismatch;
with canonicalized domains object identity is equality of `DomainTuple`
values.  Otherwise the operation is performed pointwise on the buffers. -/

/-- The error raised by a Field binary operation on mismatched domains
(`ValueError("domains are incompatible.")`, classified as `DomainMismatch`
by the specification). -/
inductive FieldError where
  | domainMismatch
deriving DecidableEq, Repr

/-- A nifty5 `Field`: a canonical `DomainTuple` plus a dense buffer. -/
structure NField where
  dom : DomainTuple
  val : List ℚ
deriving DecidableEq, Repr

/-- A Field binary operator (`__add__`, `__sub__`, `__mul__`, and the
`func2`-generated operators of `src/nifty5/field.py`): check domain identity,
then combine the buffers pointwise with `op`. -/
def fieldBinOp (op : ℚ → ℚ → ℚ) (a b : NField) : Except FieldError NField :=
  if a.dom = b.dom then
    Except.ok ⟨a.dom, List.zipWith op a.val b.val⟩
  else
    Except.error FieldError.domainMismatch

/-! ### `ScalingOperator` (`src/nifty5/operators/scaling_operator.py`)

The operation modes and their bits: `apply` tests `mode & 10` (the adjoint
modes) and `mode & 12` (the inverse modes), fixing the bit layout
TIMES = 1, ADJOINT_TIMES = 2, INVERSE_TIMES = 4, ADJOINT_INVERSE_TIMES = 8. -/

/-- One of the four operation modes of a linear operator. -/
inductive OpMode where
  | times
  | adjointTimes
  | inverseTimes
  | adjointInverseTimes
deriving DecidableEq, Repr

/-- The bit encoding a mode, as used by the `mode & 10` / `mode & 12` tests
in `ScalingOperator.apply`. -/
def OpMode.bits : OpMode → Nat
  | times => 1
  | adjointTimes => 2
  | inverseTimes => 4
  | adjointInverseTimes => 8

/-- Modelled from the spec: the `_all_ops` capability constant of the
`LinearOperator` base class (not under `src/`), the bitwise OR of all four
mode bits — "capability: bitset of {FORWARD, ADJOINT, INVERSE,
ADJOINT_INVERSE}". -/
def allOps : Nat := 15

/-- A constructed `ScalingOperator`: the scalar factor, the size of its
(endomorphic) domain, and the advertised capability bitset. -/
structure ScalingOperator where
  factor : CQ
  n : Nat
  capability : Nat
deriving DecidableEq, Repr

/-- The argument passed to `ScalingOperator.__init__`: a scalar or
(erroneously) a field-like value. -/
inductive ScalarOrField where
  | scalar (c : CQ)
  | field (v : List CQ)

/-- `ScalingOperator.__init__`: reject non-scalar factors (`TypeError`),
otherwise construct the operator with capability `_all_ops` — for every
factor, including zero. -/
def scalingInit (f : ScalarOrField) (n : Nat) : Option ScalingOperator :=
  match f with
  | ScalarOrField.scalar c => some ⟨c, n, allOps⟩
  | ScalarOrField.field _ => none

/-- `ScalingOperator.apply`: after the input check (the base-class
`_check_input`, which requires the input to live on the operator's domain),
return `x` itself for factor 1, the zero field on the domain for factor 0,
and otherwise multiply by the factor, conjugated for the adjoint modes
(`mode & 10`) and inverted for the inverse modes (`mode & 12`). -/
def ScalingOperator.apply (op : ScalingOperator) (x : List CQ) (mode : OpMode) :
    Option (List CQ) :=
  if x.length ≠ op.n then none
  else if op.factor = 1 then some x
  else if op.factor = 0 then some (List.replicate op.n (0 : CQ))
  else
    let f1 := if mode.bits &&& 10 ≠ 0 then CQ.conj op.factor else op.factor
    let f2 := if mode.bits &&& 12 ≠ 0 then CQ.inv f1 else f1
    some (x.map (fun xi => xi * f2))

/-! ### Linearization over a single Field (`src/nifty5/linearization.py`)

The Jacobian built by the elementary functions is a syntax tree of the
operators the source composes: `ScalingOperator` (from `make_var`),
`makeOp(field)` (a diagonal operator), and `op1.chain(op2)` (composition,
`op2` applied first).  Values are real buffers; the elementary real
functions `exp`, `log`, `tanh` are abstract parameters (`rexp`, `rlog`,
`rtanh`), since exact rationals carry no such transcendental functions. -/

/-- The Jacobian operators produced by `Linearization`: scaling by a scalar,
a diagonal (elementwise-multiplication) operator holding a field, and chain
composition (the right factor applied first). -/
inductive Jac where
  | scale (c : ℚ)
  | diag (d : List ℚ)
  | chain (a b : Jac)
deriving DecidableEq, Repr

/-- Action of a Jacobian tree on a buffer. A diagonal operator multiplies
elementwise by its stored field; a chain applies the right operator first. -/
def Jac.eval : Jac → List ℚ → List ℚ
  | Jac.scale c, x => x.map (fun xi => c * xi)
  | Jac.diag d, x => List.zipWith (· * ·) d x
  | Jac.chain a b, x => a.eval (b.eval x)

/-- A `Linearization` over a plain Field: a value and a Jacobian. -/
structure Lin where
  val : List ℚ
  jac : Jac
deriving DecidableEq, Repr

/-- `Linearization.exp`: value `exp(v)`, Jacobian `makeOp(exp(v)).chain(jac)`. -/
def Lin.exp (rexp : ℚ → ℚ) (L : Lin) : Lin :=
  let tmp := L.val.map rexp
  ⟨tmp, Jac.chain (Jac.diag tmp) L.jac⟩

/-- `Linearization.log`: value `log(v)`, Jacobian `makeOp(1./v).chain(jac)`. -/
def Lin.log (rlog : ℚ → ℚ) (L : Lin) : Lin :=
  ⟨L.val.map rlog, Jac.chain (Jac.diag (L.val.map (fun v => 1 / v))) L.jac⟩

/-- `Linearization.tanh`: value `tanh(v)`, Jacobian
`makeOp(1. - tanh(v)**2).chain(jac)`. -/
def Lin.tanh (rtanh : ℚ → ℚ) (L : Lin) : Lin :=
  let tmp := L.val.map rtanh
  ⟨tmp, Jac.chain (Jac.diag (tmp.map (fun t => 1 - t ^ 2))) L.jac⟩

/-- `Linearization.make_var`: the identity-Jacobian linearization
`Linearization(field, ScalingOperator(1., field.domain))`. -/
def Lin.makeVar (x : List ℚ) : Lin := ⟨x, Jac.scale 1⟩

/-- The linearization of `f(x) = exp(log(x))` built from the variable
linearization at `x`. -/
def expLogVar (rexp rlog : ℚ → ℚ) (x : List ℚ) : Lin :=
  Lin.exp rexp (Lin.log rlog (Lin.makeVar x))

/-! ### MultiField binary operations (`src/nifty5/multi/multi_field.py`)

A `MultiField` holds one optional Field per key of its `MultiDomain` (an
absent entry, `None` in the source, stands for zero).  The
`func2`-generated binary operators require `self._domain is other._domain`
and combine entries per key: `v1 op (v1*0)` when the right entry is absent,
`(v2*0) op v2` when the left one is, `None` when both are. -/

/-- A `MultiDomain`: canonical sorted mapping of names to sub-domain sizes.
Canonicalization makes object identity coincide with equality. -/
def MultiDomain := List (String × Nat)

instance : DecidableEq MultiDomain := by
  unfold MultiDomain; infer_instance

instance : Repr MultiDomain := by
  unfold MultiDomain; infer_instance

/-- A nifty5 `MultiField`: its `MultiDomain` and one optional buffer per key
(in the domain's canonical key order). -/
structure NMultiField where
  dom : MultiDomain
  val : List (Option (List ℚ))
deriving DecidableEq, Repr

/-- One entry of the result of a MultiField binary operator: the four cases
of the `func2` loop body. -/
def mfEntryOp (op : ℚ → ℚ → ℚ) :
    Option (List ℚ) → Option (List ℚ) → Option (List ℚ)
  | some v1, some v2 => some (List.zipWith op v1 v2)
  | some v1, none => some (List.zipWith op v1 (v1.map (fun q => q * 0)))
  | none, some v2 => some (List.zipWith op (v2.map (fun q => q * 0)) v2)
  | none, none => none

/-- A MultiField binary operator (`func2` of `src/nifty5/multi/multi_field.py`
for the MultiField–MultiField case): require identical domains, then combine
the entry lists with `mfEntryOp`. -/
def mfBinOp (op : ℚ → ℚ → ℚ) (a b : NMultiField) : Option NMultiField :=
  if a.dom = b.dom then
    some ⟨a.dom, List.zipWith (mfEntryOp op) a.val b.val⟩
  else
    none

/-! ### Linearization addition over multi-fields (`src/nifty5/linearization.py`)

`Linearization.__add__` on two Linearizations returns
`Linearization(self._val.unite(other._val),
RelaxedSumOperator((self._jac, other._jac)))`.  Entries of a multi-field
value are indexed below by a shared universe of key positions; an absent
key is `none`. -/

/-- The value of a multi-field over a fixed key universe: one optional
buffer per key position. -/
def MFVal := List (Option (List ℚ))

instance : DecidableEq MFVal := by
  unfold MFVal; infer_instance

/-- Modelled from the spec: one key of `MultiField.unite` (not under `src/`):
the union of the two values, adding where both are present — "unions their
values ... treating an absent key on one side as contributing zero". -/
def uniteEntry : Option (List ℚ) → Option (List ℚ) → Option (List ℚ)
  | some x, some y => some (List.zipWith (· + ·) x y)
  | some x, none => some x
  | none, some y => some y
  | none, none => none

/-- Union of two multi-field values, key by key. -/
def mfUnite (a b : MFVal) : MFVal := List.zipWith uniteEntry a b

/-- A Linearization whose value lives on a multi-domain; the Jacobian is the
map sending a model-space tangent to a multi-field of per-key outputs. -/
structure MLin where
  val : MFVal
  jac : List ℚ → MFVal

/-- `Linearization.__add__` for two Linearizations: unite the values and sum
the Jacobians with a relaxed sum.  Modelled from the spec for the action of
`RelaxedSumOperator` (not under `src/`): the sum of the constituent applies,
an absent key on one side contributing zero. -/
def MLin.add (a b : MLin) : MLin :=
  ⟨mfUnite a.val b.val, fun t => mfUnite (a.jac t) (b.jac t)⟩

/-! ### Poissonian energy (`src/nifty5/library/poissonian_energy.py`)

`PoissonianEnergy.apply` computes `x.sum() - x.log().vdot(d)`.  The
elementwise logarithm is defined only for strictly positive entries; a
non-positive entry makes the evaluation numerically invalid (`none`),
matching the NaN/Inf the machine logarithm would produce there. -/

/-- The elementwise logarithm as a partial function: defined (via the
abstract real logarithm `rlog`) only on strictly positive inputs. -/
def plog (rlog : ℚ → ℚ) (q : ℚ) : Option ℚ :=
  if 0 < q then some (rlog q) else none

/-- `Field.log`: the elementwise logarithm of a buffer; invalid (`none`) as
soon as any entry is non-positive. -/
def fieldLog (rlog : ℚ → ℚ) : List ℚ → Option (List ℚ)
  | [] => some []
  | a :: x =>
    match plog rlog a, fieldLog rlog x with
    | some b, some bs => some (b :: bs)
    | _, _ => none

/-- Real dot product of two buffers (the `vdot` of two real Fields). -/
def qdot (a b : List ℚ) : ℚ := (List.zipWith (· * ·) a b).sum

/-- `PoissonianEnergy.apply` on a plain Field value: `x.sum() - x.log().vdot(d)`,
propagating invalidity of the logarithm. -/
def poissonianApply (rlog : ℚ → ℚ) (x d : List ℚ) : Option ℚ :=
  (fieldLog rlog x).map (fun lx => x.sum - qdot lx d)

/-! ### Scipy-based minimizers (`src/nifty5/minimization/scipy_minimizer.py`)

Both minimizers return a pair `(energy, status)`.  The status constants are
those of `IterationController`.  Modelled from the spec: the
`IterationController` state set (`iteration_controller.py` is not under
`src/`) — §3 gives the states {CONTINUE, CONVERGED, ERROR}; the
`NONCONVERGENCE` constructor is added to express the spec's additional
`NonConvergence` status so that the claim about it can be stated. -/

/-- Solver status constants. -/
inductive IterStatus where
  | CONTINUE
  | CONVERGED
  | NONCONVERGENCE
  | ERROR
deriving DecidableEq, Repr

/-- The pair scipy's `cg` returns: the final iterate `res` and the integer
status `stat` (`0` = converged to tolerance, `> 0` = iteration budget
exhausted before reaching tolerance, `< 0` = illegal input or breakdown). -/
structure CGOutput where
  res : List ℚ
  stat : Int
deriving DecidableEq, Repr

/-- `ScipyCG.__call__` result handling: return the energy repositioned at
scipy's final iterate, with status CONVERGED when `stat >= 0` and ERROR
otherwise. -/
def scipyCGCall (out : CGOutput) : List ℚ × IterStatus :=
  (out.res, if 0 ≤ out.stat then IterStatus.CONVERGED else IterStatus.ERROR)

/-- `ScipyMinimizer.__call__` result handling: return the helper's current
energy (at the last evaluated position), with status CONVERGED when scipy
reports success and ERROR otherwise. -/
def scipyMinimizeCall (finalPos : List ℚ) (success : Bool) :
    List ℚ × IterStatus :=
  (finalPos, if success then IterStatus.CONVERGED else IterStatus.ERROR)

/-! ## Theorems -/

/-! ### Complex-scalar lemmas -/

theorem cq_eq_iff (a b : CQ) : a = b ↔ a.re = b.re ∧ a.im = b.im := by
  cases a; cases b; simp

theorem cq_add_def (a b : CQ) : a + b = ⟨a.re + b.re, a.im + b.im⟩ := rfl

theorem cq_mul_def (a b : CQ) :
    a * b = ⟨a.re * b.re - a.im * b.im, a.re * b.im + a.im * b.re⟩ := rfl

theorem cq_conj_add (a b : CQ) :
    CQ.conj (a + b) = CQ.conj a + CQ.conj b := by
  simp [CQ.conj, cq_add_def, cq_eq_iff]; ring

theorem cq_conj_zero : CQ.conj 0 = 0 := by
  simp [CQ.conj, cq_eq_iff]
  rfl

theorem csum_conj (l : List CQ) :
    CQ.conj (csum l) = csum (l.map CQ.conj) := by
  induction l with
  | nil => exact cq_conj_zero
  | cons a l ih =>
    show CQ.conj (a + csum l) = CQ.conj a + csum (l.map CQ.conj)
    rw [cq_conj_add, ih]

theorem cq_conj_term_bare (ai bi : CQ) :
    CQ.conj bi * ai = CQ.conj (CQ.conj ai * bi) := by
  simp [CQ.conj, cq_mul_def, cq_eq_iff]; constructor <;> ring

theorem cq_conj_term_weighted (w : ℚ) (ai bi : CQ) :
    CQ.conj bi * (CQ.ofRat w * ai) =
      CQ.conj (CQ.conj ai * (CQ.ofRat w * bi)) := by
  simp [CQ.conj, CQ.ofRat, cq_mul_def, cq_eq_iff]; constructor <;> ring

theorem vdot_symm_aux :
    ∀ (a b : List CQ),
      List.zipWith (fun u v => CQ.conj u * v) b a =
        List.map CQ.conj (List.zipWith (fun u v => CQ.conj u * v) a b) := by
  intro a
  induction a with
  | nil => intro b; cases b <;> simp
  | cons ai a ih =>
    intro b
    cases b with
    | nil => simp
    | cons bi b =>
      simp only [List.zipWith_cons_cons, List.map_cons]
      exact congrArg₂ (· :: ·) (cq_conj_term_bare ai bi) (ih b)

theorem weightBuf_nil (w : List ℚ) : weightBuf w [] = [] := by
  simp [weightBuf]

theorem weightBuf_nil_left (a : List CQ) : weightBuf [] a = [] := rfl

theorem weightBuf_cons (wi : ℚ) (w : List ℚ) (ai : CQ) (a : List CQ) :
    weightBuf (wi :: w) (ai :: a) = (CQ.ofRat wi * ai) :: weightBuf w a := rfl

theorem dot_symm_aux :
    ∀ (w : List ℚ) (a b : List CQ),
      List.zipWith (fun u v => CQ.conj u * v) b (weightBuf w a) =
        List.map CQ.conj
          (List.zipWith (fun u v => CQ.conj u * v) a (weightBuf w b)) := by
  intro w
  induction w with
  | nil => intro a b; simp [weightBuf]
  | cons wi w ih =>
    intro a b
    cases a with
    | nil => cases b <;> simp [weightBuf]
    | cons ai a =>
      cases b with
      | nil => simp [weightBuf]
      | cons bi b =>
        rw [weightBuf_cons, weightBuf_cons]
        simp only [List.zipWith_cons_cons, List.map_cons]
        exact congrArg₂ (· :: ·) (cq_conj_term_weighted wi ai bi) (ih a b)

/-- C9: `Field.dot`/`Field.vdot` is a conjugate-symmetric inner product that
respects the volume weighting: with `bare=False` the left operand (`self`)
is weighted by the volume element to the first power before the pointwise
conjugate product is summed, and with `bare=True` no volume weighting is
applied; both variants, and nifty5's `vdot`, satisfy
`dot(a, b) = conj(dot(b, a))`. -/
theorem field_dot_conjugate_symmetric_weighted :
    ∀ (w : List ℚ) (a b : List CQ),
      fieldDot w false a b = fieldDot w true (weightBuf w a) b ∧
      fieldDot w true a b =
        csum (List.zipWith (fun u v => CQ.conj u * v) b a) ∧
      fieldDot w false a b = CQ.conj (fieldDot w false b a) ∧
      fieldDot w true a b = CQ.conj (fieldDot w true b a) ∧
      fieldVdot5 a b = CQ.conj (fieldVdot5 b a) := by
  intro w a b
  refine ⟨rfl, rfl, ?_, ?_, ?_⟩
  · show csum (List.zipWith _ b (weightBuf w a)) =
      CQ.conj (csum (List.zipWith _ a (weightBuf w b)))
    rw [dot_symm_aux, csum_conj]
  · show csum (List.zipWith _ b a) = CQ.conj (csum (List.zipWith _ a b))
    rw [vdot_symm_aux, csum_conj]
  · show csum (List.zipWith _ a b) = CQ.conj (csum (List.zipWith _ b a))
    rw [vdot_symm_aux b a, csum_conj]

/-! ### Field binary operations and domain identity -/

/-- C7: a binary operation between two Fields succeeds exactly when the two
domains are the identical canonical `DomainTuple`; on mismatch it fails with
`DomainMismatch` and produces no result Field. -/
theorem field_binary_op_requires_identical_domain :
    ∀ (op : ℚ → ℚ → ℚ) (a b : NField),
      (a.dom ≠ b.dom →
        fieldBinOp op a b = Except.error FieldError.domainMismatch) ∧
      (a.dom = b.dom →
        fieldBinOp op a b = Except.ok ⟨a.dom, List.zipWith op a.val b.val⟩) ∧
      ((∃ r, fieldBinOp op a b = Except.ok r) ↔ a.dom = b.dom) := by
  intro op a b
  unfold fieldBinOp
  by_cases h : a.dom = b.dom <;> simp [h]

/-- Witness for C7 at concrete inputs: adding two Fields over distinct
canonical domains fails with `DomainMismatch`. -/
theorem field_binary_op_requires_identical_domain_witness :
    fieldBinOp (· + ·) ⟨⟨0, []⟩, [1]⟩ ⟨⟨1, []⟩, [2]⟩ =
      Except.error FieldError.domainMismatch :=
  (field_binary_op_requires_identical_domain (· + ·) ⟨⟨0, []⟩, [1]⟩
    ⟨⟨1, []⟩, [2]⟩).1 (by decide)

/-! ### Minimizer return statuses -/

/-- C1 counterexample: scipy's `cg` signals an exhausted iteration budget by
a positive status; `ScipyCG.__call__` maps every status `>= 0` to CONVERGED,
so the budget-exhausted solve at status 1 is reported CONVERGED, not
NonConvergence as the claim states. -/
theorem scipy_cg_budget_exhaustion_reports_converged :
    (scipyCGCall ⟨[5], 1⟩).2 = IterStatus.CONVERGED ∧
      ¬(scipyCGCall ⟨[5], 1⟩).2 = IterStatus.NONCONVERGENCE := by
  decide

/-- C1 (amended): every scipy-based solve returns a pair `(energy, status)`
with status CONVERGED or ERROR (never NonConvergence); `ScipyCG` reports
CONVERGED exactly when scipy's status is `>= 0` (which includes an exhausted
iteration budget) and always repositions the energy at the final iterate
rather than discarding the work; `ScipyMinimizer` reports CONVERGED exactly
on scipy success and returns the last evaluated position in every case. -/
theorem minimizer_returns_energy_and_converged_or_error :
    ∀ (out : CGOutput) (p : List ℚ) (success : Bool),
      (scipyCGCall out).1 = out.res ∧
      ((scipyCGCall out).2 = IterStatus.CONVERGED ∨
        (scipyCGCall out).2 = IterStatus.ERROR) ∧
      ((scipyCGCall out).2 = IterStatus.CONVERGED ↔ 0 ≤ out.stat) ∧
      (scipyMinimizeCall p success).1 = p ∧
      ((scipyMinimizeCall p success).2 = IterStatus.CONVERGED ∨
        (scipyMinimizeCall p success).2 = IterStatus.ERROR) ∧
      ((scipyMinimizeCall p success).2 = IterStatus.CONVERGED ↔
        success = true) := by
  intro out p success
  unfold scipyCGCall scipyMinimizeCall
  by_cases h : 0 ≤ out.stat <;> cases success <;> simp [h]

/-! ### The DomainTuple identity cache -/

theorem tupleLookup_none_iff (c : List DomainTuple) (k : List Domain) :
    tupleLookup c k = none ↔ ∀ t ∈ c, t.dom ≠ k := by
  simp [tupleLookup, List.find?_eq_none]

theorem tupleLookup_cons_self (n : Nat) (k : List Domain)
    (c : List DomainTuple) :
    tupleLookup (⟨n, k⟩ :: c) k = some ⟨n, k⟩ := by
  simp [tupleLookup, List.find?]

theorem cacheWF_make (c : List DomainTuple) (k : List Domain)
    (h : CacheWF c) : CacheWF (domainTupleMake c k).2 := by
  unfold domainTupleMake
  cases hl : tupleLookup c k with
  | some t => exact h
  | none =>
    have hnone := (tupleLookup_none_iff c k).mp hl
    obtain ⟨h1, h2, h3⟩ := h
    refine ⟨?_, ?_, ?_⟩
    · intro t ht
      rcases List.mem_cons.mp ht with rfl | ht
      · simp
      · have := h1 t ht
        simp only [List.length_cons]
        omega
    · intro t1 ht1 t2 ht2 hu
      rcases List.mem_cons.mp ht1 with rfl | ht1 <;>
        rcases List.mem_cons.mp ht2 with rfl | ht2
      · rfl
      · exfalso
        have hlt := h1 t2 ht2
        have hu2 : c.length = t2.uid := hu
        omega
      · exfalso
        have hlt := h1 t1 ht1
        have hu2 : t1.uid = c.length := hu
        omega
      · exact h2 t1 ht1 t2 ht2 hu
    · intro t1 ht1 t2 ht2 hd
      rcases List.mem_cons.mp ht1 with rfl | ht1 <;>
        rcases List.mem_cons.mp ht2 with rfl | ht2
      · rfl
      · exact absurd hd.symm (hnone t2 ht2)
      · exact absurd hd (hnone t1 ht1)
      · exact h3 t1 ht1 t2 ht2 hd

theorem domainTupleMake_repeat (c : List DomainTuple) (k : List Domain) :
    (domainTupleMake (domainTupleMake c k).2 k).1 = (domainTupleMake c k).1 := by
  unfold domainTupleMake
  cases hl : tupleLookup c k with
  | some t => simp [hl]
  | none => simp [tupleLookup_cons_self]

theorem dtEq_iff_identity (c : List DomainTuple) (h : CacheWF c) :
    ∀ t1 ∈ c, ∀ t2 ∈ c, (dtEq t1 t2 = true ↔ t1 = t2) := by
  intro t1 h1 t2 h2
  unfold dtEq
  simp only [Bool.or_eq_true, decide_eq_true_eq]
  constructor
  · rintro (rfl | hd)
    · rfl
    · exact h.2.2 t1 h1 t2 h2 hd
  · intro he
    exact Or.inl he

/-- C8: `DomainTuple.make` consults the identity cache before constructing,
so making two structurally identical domain descriptions yields the same
object instance, the cache invariant is preserved, and for DomainTuples
obtained via `make` the `__eq__` test (identity or structural equality)
holds exactly when the two references are the same object. -/
theorem domainTuple_make_identity_cache :
    ∀ (c : List DomainTuple) (k1 k2 : List Domain), CacheWF c → k1 = k2 →
      (domainTupleMake (domainTupleMake c k1).2 k2).1 =
        (domainTupleMake c k1).1 ∧
      CacheWF (domainTupleMake c k1).2 ∧
      (∀ t1 ∈ (domainTupleMake c k1).2, ∀ t2 ∈ (domainTupleMake c k1).2,
        (dtEq t1 t2 = true ↔ t1 = t2)) := by
  intro c k1 k2 hwf hk
  subst hk
  exact ⟨domainTupleMake_repeat c k1, cacheWF_make c k1 hwf,
    dtEq_iff_identity _ (cacheWF_make c k1 hwf)⟩

/-- Witness for C8: from the empty (well-formed) cache, making the same
one-domain description twice returns the identical object. -/
theorem domainTuple_make_identity_cache_witness :
    CacheWF [] ∧
      (domainTupleMake (domainTupleMake [] [⟨[2], false⟩]).2
        [⟨[2], false⟩]).1 = (domainTupleMake [] [⟨[2], false⟩]).1 :=
  ⟨by decide,
    (domainTuple_make_identity_cache [] [⟨[2], false⟩] [⟨[2], false⟩]
      (by decide) rfl).1⟩

/-! ### ScalingOperator capabilities and degenerate factors -/

/-- C3: for every scalar factor, including zero, `ScalingOperator.__init__`
succeeds and sets the capability to `_all_ops`, so the fresh operator
advertises all four modes (FORWARD, ADJOINT, INVERSE, ADJOINT_INVERSE);
construction never fails on a singular factor, hence any inverse-mode
failure could only happen at the point of use. -/
theorem scaling_operator_advertises_all_capabilities :
    ∀ (c : CQ) (n : Nat),
      scalingInit (ScalarOrField.scalar c) n = some ⟨c, n, allOps⟩ ∧
      (∀ m : OpMode,
        (⟨c, n, allOps⟩ : ScalingOperator).capability &&& m.bits ≠ 0) := by
  intro c n
  refine ⟨rfl, ?_⟩
  intro m
  show allOps &&& m.bits ≠ 0
  cases m <;> decide

/-- C10: applying a `ScalingOperator` with factor exactly 0 yields the zero
field on its domain for every in-domain input and every mode, including the
inverse modes, without failing; with factor exactly 1 it returns the input
itself in every mode. -/
theorem scaling_operator_zero_and_one_factor :
    ∀ (op : ScalingOperator) (x : List CQ) (mode : OpMode),
      x.length = op.n →
      (op.factor = 0 →
        op.apply x mode = some (List.replicate op.n (0 : CQ))) ∧
      (op.factor = 1 → op.apply x mode = some x) := by
  intro op x mode hx
  have hc : ¬(x.length ≠ op.n) := not_ne_iff.mpr hx
  constructor
  · intro h0
    have h1 : ¬(op.factor = 1) := by
      rw [h0]
      decide
    unfold ScalingOperator.apply
    rw [if_neg hc, if_neg h1, if_pos h0]
  · intro h1
    unfold ScalingOperator.apply
    rw [if_neg hc, if_pos h1]

/-- Witness for C10: on a two-cell domain, the zero-factor operator maps a
concrete field to the zero field in inverse mode, and the unit-factor
operator returns the field unchanged in adjoint-inverse mode. -/
theorem scaling_operator_zero_and_one_factor_witness :
    (ScalingOperator.apply ⟨0, 2, allOps⟩ [⟨3, 1⟩, ⟨5, 0⟩]
        OpMode.inverseTimes = some [0, 0]) ∧
      (ScalingOperator.apply ⟨1, 2, allOps⟩ [⟨3, 1⟩, ⟨5, 0⟩]
        OpMode.adjointInverseTimes = some [⟨3, 1⟩, ⟨5, 0⟩]) :=
  ⟨(scaling_operator_zero_and_one_factor ⟨0, 2, allOps⟩ [⟨3, 1⟩, ⟨5, 0⟩]
      OpMode.inverseTimes (by decide)).1 rfl,
    (scaling_operator_zero_and_one_factor ⟨1, 2, allOps⟩ [⟨3, 1⟩, ⟨5, 0⟩]
      OpMode.adjointInverseTimes (by decide)).2 rfl⟩

/-! ### Linearization: elementary functions and the chain rule -/

/-- C5: each elementary function on a Linearization returns the function
applied to the value together with a Jacobian that is the chain composition
of the locally evaluated diagonal derivative operator with the input
Jacobian: `exp` composes `Diagonal(exp(v))`, `log` composes
`Diagonal(1/v)`, `tanh` composes `Diagonal(1 - tanh(v)^2)`; in action the
composed Jacobian multiplies the input Jacobian's output elementwise by the
derivative field. -/
theorem linearization_elementary_functions_chain_rule :
    ∀ (rexp rlog rtanh : ℚ → ℚ) (L : Lin) (t : List ℚ),
      ((Lin.exp rexp L).val = L.val.map rexp ∧
        (Lin.exp rexp L).jac =
          Jac.chain (Jac.diag (L.val.map rexp)) L.jac ∧
        (Lin.exp rexp L).jac.eval t =
          List.zipWith (· * ·) (L.val.map rexp) (L.jac.eval t)) ∧
      ((Lin.log rlog L).val = L.val.map rlog ∧
        (Lin.log rlog L).jac =
          Jac.chain (Jac.diag (L.val.map (fun v => 1 / v))) L.jac ∧
        (Lin.log rlog L).jac.eval t =
          List.zipWith (· * ·) (L.val.map (fun v => 1 / v)) (L.jac.eval t)) ∧
      ((Lin.tanh rtanh L).val = L.val.map rtanh ∧
        (Lin.tanh rtanh L).jac =
          Jac.chain (Jac.diag ((L.val.map rtanh).map (fun u => 1 - u ^ 2)))
            L.jac ∧
        (Lin.tanh rtanh L).jac.eval t =
          List.zipWith (· * ·) ((L.val.map rtanh).map (fun u => 1 - u ^ 2))
            (L.jac.eval t)) := by
  intro rexp rlog rtanh L t
  exact ⟨⟨rfl, rfl, rfl⟩, ⟨rfl, rfl, rfl⟩, ⟨rfl, rfl, rfl⟩⟩

theorem zip_inv_cancel :
    ∀ (x t : List ℚ), (∀ q ∈ x, q ≠ 0) → t.length = x.length →
      List.zipWith (· * ·) x
        (List.zipWith (· * ·) (x.map (fun v => 1 / v)) t) = t := by
  intro x
  induction x with
  | nil =>
    intro t _ ht
    rw [List.length_eq_zero.mp ht]
    rfl
  | cons a x ih =>
    intro t hnz ht
    cases t with
    | nil => simp at ht
    | cons b t =>
      simp only [List.map_cons, List.zipWith_cons_cons]
      have ha : a ≠ 0 := hnz a (List.mem_cons_self a x)
      have hb : a * (1 / a * b) = b := by
        field_simp
      rw [hb, ih t (fun q hq => hnz q (List.mem_cons_of_mem a hq))
        (by simpa using ht)]

/-- C6: for a strictly positive field `x`, the Jacobian of
`f(x) = exp(log(x))` built from the variable (identity-Jacobian)
linearization acts as the identity operator: the composed diagonal factors
`exp(log(x))` and `1/x` cancel to the all-ones diagonal. -/
theorem exp_log_roundtrip_jacobian_identity :
    ∀ (rexp rlog : ℚ → ℚ) (x t : List ℚ),
      (∀ q ∈ x, 0 < q) →
      (∀ q : ℚ, 0 < q → rexp (rlog q) = q) →
      t.length = x.length →
      (expLogVar rexp rlog x).jac.eval t = t := by
  intro rexp rlog x t hx hround ht
  show List.zipWith (· * ·) ((x.map rlog).map rexp)
    (List.zipWith (· * ·) (x.map (fun v => 1 / v))
      (t.map (fun ti => 1 * ti))) = t
  have hmap : (x.map rlog).map rexp = x := by
    rw [List.map_map]
    have := List.map_congr_left
      (l := x) (f := rexp ∘ rlog) (g := id)
      (fun a ha => hround a (hx a ha))
    rw [this, List.map_id]
  have hone : t.map (fun ti => 1 * ti) = t := by
    have := List.map_congr_left (l := t) (f := fun ti => 1 * ti) (g := id)
      (fun a _ => one_mul a)
    rw [this, List.map_id]
  rw [hmap, hone]
  exact zip_inv_cancel x t (fun q hq => ne_of_gt (hx q hq)) ht

/-- Witness for C6: with the round-tripping pair of elementary functions
instantiated as the identity, the Jacobian of `exp(log(x))` at the positive
field `[2, 3]` maps the tangent `[5, 7]` to itself. -/
theorem exp_log_roundtrip_jacobian_identity_witness :
    (∀ q ∈ ([2, 3] : List ℚ), 0 < q) ∧
      (expLogVar (fun q => q) (fun q => q) [2, 3]).jac.eval [5, 7] =
        [5, 7] :=
  ⟨by decide,
    exp_log_roundtrip_jacobian_identity (fun q => q) (fun q => q) [2, 3]
      [5, 7] (by decide) (fun q _ => rfl) (by decide)⟩

/-! ### MultiField operations: absent keys act as zero -/

theorem map_mul_zero (v : List ℚ) :
    v.map (fun q => q * 0) = List.replicate v.length 0 := by
  induction v with
  | nil => rfl
  | cons a v ih => simp [List.replicate_succ, ih]

theorem zip_add_zero_right (x : List ℚ) :
    List.zipWith (· + ·) x (List.replicate x.length 0) = x := by
  induction x with
  | nil => rfl
  | cons a x ih => simp [List.replicate_succ, ih]

theorem zip_add_zero_left (y : List ℚ) :
    List.zipWith (· + ·) (List.replicate y.length 0) y = y := by
  induction y with
  | nil => rfl
  | cons a y ih => simp [List.replicate_succ, ih]

/-- C4: a MultiField binary operation requires the identical MultiDomain and
combines the two value lists key by key, where a key absent on one side is
treated as the zero field of that key's sub-domain (`v1 op 0`, `0 op v2`, and
absent when absent on both sides); and the addition of two Linearizations
unites their values key by key and sums their Jacobians with a relaxed sum,
an absent key on one side contributing zero. -/
theorem multifield_absent_keys_treated_as_zero :
    ∀ (op : ℚ → ℚ → ℚ) (a b : NMultiField) (v1 v2 : List ℚ)
      (L1 L2 : MLin) (t : List ℚ),
      (a.dom = b.dom →
        mfBinOp op a b =
          some ⟨a.dom, List.zipWith (mfEntryOp op) a.val b.val⟩) ∧
      mfEntryOp op (some v1) (some v2) = some (List.zipWith op v1 v2) ∧
      mfEntryOp op (some v1) none =
        some (List.zipWith op v1 (List.replicate v1.length 0)) ∧
      mfEntryOp op none (some v2) =
        some (List.zipWith op (List.replicate v2.length 0) v2) ∧
      mfEntryOp op none none = none ∧
      (MLin.add L1 L2).val = mfUnite L1.val L2.val ∧
      (MLin.add L1 L2).jac t = mfUnite (L1.jac t) (L2.jac t) ∧
      uniteEntry (some v1) (some v2) = some (List.zipWith (· + ·) v1 v2) ∧
      uniteEntry (some v1) none =
        some (List.zipWith (· + ·) v1 (List.replicate v1.length 0)) ∧
      uniteEntry none (some v2) =
        some (List.zipWith (· + ·) (List.replicate v2.length 0) v2) ∧
      uniteEntry none none = none := by
  intro op a b v1 v2 L1 L2 t
  refine ⟨?_, rfl, ?_, ?_, rfl, rfl, rfl, rfl, ?_, ?_, rfl⟩
  · intro h
    unfold mfBinOp
    rw [if_pos h]
  · show some (List.zipWith op v1 (v1.map (fun q => q * 0))) = _
    rw [map_mul_zero]
  · show some (List.zipWith op (v2.map (fun q => q * 0)) v2) = _
    rw [map_mul_zero]
  · show some v1 = _
    rw [zip_add_zero_right]
  · show some v2 = _
    rw [zip_add_zero_left]

/-- Witness for C4: over the two-key domain {x, y}, adding a MultiField that
has only key x to one that has only key y unions the keys, each absent side
counting as zero. -/
theorem multifield_absent_keys_treated_as_zero_witness :
    mfBinOp (· + ·) ⟨[("x", 1), ("y", 1)], [some [1], none]⟩
      ⟨[("x", 1), ("y", 1)], [none, some [2]]⟩ =
      some ⟨[("x", 1), ("y", 1)], [some [1], some [2]]⟩ := by
  rw [(multifield_absent_keys_treated_as_zero (· + ·)
    ⟨[("x", 1), ("y", 1)], [some [1], none]⟩
    ⟨[("x", 1), ("y", 1)], [none, some [2]]⟩ [] []
    ⟨[], fun _ => []⟩ ⟨[], fun _ => []⟩ []).1 rfl]
  simp [mfEntryOp]

/-! ### Poissonian energy: strictly positive predictions -/

theorem fieldLog_eq_none (rlog : ℚ → ℚ) (x : List ℚ)
    (h : ∃ q ∈ x, q ≤ 0) : fieldLog rlog x = none := by
  induction x with
  | nil => simp at h
  | cons a x ih =>
    obtain ⟨q, hq, hle⟩ := h
    rcases List.mem_cons.mp hq with rfl | hq2
    · have hpa : plog rlog q = none := by
        unfold plog
        rw [if_neg (not_lt.mpr hle)]
      unfold fieldLog
      rw [hpa]
    · have hx : fieldLog rlog x = none := ih ⟨q, hq2, hle⟩
      unfold fieldLog
      rw [hx]
      cases plog rlog a <;> rfl

theorem fieldLog_eq_some (rlog : ℚ → ℚ) (x : List ℚ)
    (h : ∀ q ∈ x, 0 < q) : fieldLog rlog x = some (x.map rlog) := by
  induction x with
  | nil => rfl
  | cons a x ih =>
    have hpa : plog rlog a = some (rlog a) := by
      unfold plog
      rw [if_pos (h a (List.mem_cons_self a x))]
    unfold fieldLog
    rw [hpa, ih (fun q hq => h q (List.mem_cons_of_mem a hq))]
    rfl

/-- C2: the Poissonian energy `x.sum() - x.log().vdot(d)` is numerically
invalid (no finite value is produced) as soon as any entry of the model
prediction is non-positive — the prediction is not clamped — and for a
strictly positive prediction it evaluates to `sum(x) - <log(x), d>`. -/
theorem poissonian_energy_requires_positive_prediction :
    ∀ (rlog : ℚ → ℚ) (x d : List ℚ),
      ((∃ q ∈ x, q ≤ 0) → poissonianApply rlog x d = none) ∧
      ((∀ q ∈ x, 0 < q) →
        poissonianApply rlog x d = some (x.sum - qdot (x.map rlog) d)) := by
  intro rlog x d
  constructor
  · intro h
    unfold poissonianApply
    rw [fieldLog_eq_none rlog x h]
    rfl
  · intro h
    unfold poissonianApply
    rw [fieldLog_eq_some rlog x h]
    rfl

/-- Witness for C2: a prediction with a non-positive entry gives an invalid
energy; the positive prediction `[1, 2]` with data `[1, 1]` gives
`(1 + 2) - (log 1 + log 2)`, evaluated with the identity standing in for the
abstract logarithm. -/
theorem poissonian_energy_requires_positive_prediction_witness :
    poissonianApply (fun q => q) [1, -1] [1, 1] = none ∧
      poissonianApply (fun q => q) [1, 2] [1, 1] = some ((3 : ℚ) - 3) := by
  constructor
  · exact (poissonian_energy_requires_positive_prediction (fun q => q)
      [1, -1] [1, 1]).1 ⟨-1, by decide, by decide⟩
  · rw [(poissonian_energy_requires_positive_prediction (fun q => q)
      [1, 2] [1, 1]).2 (by decide)]
    norm_num [qdot]

end NIFTy
